import Mathlib

/-!
Verification of the subconvert SVN-to-Git history translator.

This file gives a shallow embedding, in Lean, of the parts of the
subconvert source that the specification talks about, and proves (or
refutes) the specification's statements against that embedding.

Conventions used throughout:

* C++ `int` is modelled as `Int`; revision numbers, copy-from revisions
  and the `-1` sentinels of the source keep their exact integer
  semantics.
* `std::map<K, V>` is modelled as an association list `List (K × V)`
  whose keys are strictly increasing (predicate `SortedKeys`), matching
  the iteration order of the C++ container.  `upper_bound k` on such a
  list is `dropWhile (·.1 ≤ k)`, and the elements before the bound are
  `takeWhile (·.1 ≤ k)`.
* `boost::filesystem::path` is modelled as its list of segments
  (`List String`); `parent_path` is `dropLast`.
* `boost::optional` / nullable pointers are modelled as `Option`.
* Out-parameters and member mutation are modelled by explicit state
  passing; each embedded function returns its updated state.
-/

namespace Subconvert

/-! ## Historical-tree cache (`ConvertRepository::rev_trees`)

`rev_trees` is a `std::map<int, Git::TreePtr>`; the tree payload is kept
abstract (a type parameter `α`), since `get_past_tree` and
`free_past_trees` never inspect it. -/

/-- Keys of the association list are strictly increasing, as in the
iteration order of `std::map<int, ·>`. -/
def SortedKeys {α : Type} (m : List (Int × α)) : Prop :=
  m.Pairwise (fun a b => a.1 < b.1)

instance {α : Type} (m : List (Int × α)) : Decidable (SortedKeys m) :=
  inferInstanceAs (Decidable (m.Pairwise _))

/-- Embedding of `ConvertRepository::get_past_tree` (src/src/converter.cpp,
lines 96-114).  `revTrees` is the cache, `copyFromRev` is
`node->get_copy_from_rev()`.  The source takes
`i = rev_trees.upper_bound(copy_from_rev)`; if `i == end()` it returns the
last entry when the map is non-empty; otherwise if `i != begin()` it
returns `(*--i).second`; in every remaining case it reports an error and
returns `nullptr` (here `none`). -/
def get_past_tree {α : Type} (revTrees : List (Int × α)) (copyFromRev : Int) :
    Option α :=
  match revTrees.dropWhile (fun e => e.1 ≤ copyFromRev) with
  | [] =>
    match revTrees.getLast? with
    | some e => some e.2
    | none => none
  | _ :: _ =>
    match (revTrees.takeWhile (fun e => e.1 ≤ copyFromRev)).getLast? with
    | some e => some e.2
    | none => none

/-- Embedding of the reservation-popping loop of
`ConvertRepository::free_past_trees` (src/src/converter.cpp, lines 47-59).
`copyFrom` is the `copy_from` list of `(dependent_rev, source_rev)` pairs;
`popped` starts at `-1` and is overwritten with `front().second` each time
the front is popped.  Returns the remaining list and the final `popped`. -/
def pop_copy_from (lastRev : Int) :
    List (Int × Int) → Int → List (Int × Int) × Int
  | [], popped => ([], popped)
  | (d, s) :: rest, popped =>
    if lastRev > s ∧ lastRev > d then pop_copy_from lastRev rest s
    else ((d, s) :: rest, popped)

/-- Embedding of the cache-erasing tail of
`ConvertRepository::free_past_trees` (src/src/converter.cpp, lines 77-92):
`i = rev_trees.upper_bound(popped); if (i != begin) { --i; if (i != begin)
erase(begin, i); }`.  On the sorted association list this erases every
entry before the last entry whose key is `≤ popped`. -/
def prune_rev_trees {α : Type} (revTrees : List (Int × α)) (popped : Int) :
    List (Int × α) :=
  let before := revTrees.takeWhile (fun e => e.1 ≤ popped)
  if before.isEmpty then revTrees
  else revTrees.drop (before.length - 1)

/-- Embedding of `ConvertRepository::free_past_trees`
(src/src/converter.cpp, lines 40-94): pop reservations from the front of
`copy_from` while `last_rev` is past both components, then, when anything
was popped (`popped >= 0`), prune `rev_trees`. -/
def free_past_trees {α : Type} (lastRev : Int) (copyFrom : List (Int × Int))
    (revTrees : List (Int × α)) : List (Int × Int) × List (Int × α) :=
  let r := pop_copy_from lastRev copyFrom (-1)
  if r.2 ≥ 0 then (r.1, prune_rev_trees revTrees r.2) else (r.1, revTrees)

/-! ### Facts about sorted association lists -/

theorem sortedKeys_cons {α : Type} {a : Int × α} {l : List (Int × α)}
    (h : SortedKeys (a :: l)) : (∀ e ∈ l, a.1 < e.1) ∧ SortedKeys l := by
  rw [SortedKeys, List.pairwise_cons] at h
  exact ⟨h.1, h.2⟩

theorem le_getLast_of_mem {α : Type} :
    ∀ {m : List (Int × α)} (_ : SortedKeys m) (hm : m ≠ []) {e : Int × α},
      e ∈ m → e.1 ≤ (m.getLast hm).1 := by
  intro m
  induction m with
  | nil => intro _ hm; exact absurd rfl hm
  | cons a l ih =>
    intro h hm e he
    obtain ⟨hlt, hl⟩ := sortedKeys_cons h
    cases l with
    | nil =>
      rcases List.mem_singleton.mp he with rfl
      simp
    | cons b t =>
      rw [List.getLast_cons (by simp)]
      rcases List.mem_cons.mp he with rfl | he'
      · exact le_of_lt (hlt _ (List.getLast_mem _))
      · exact ih hl (by simp) he'

theorem mem_dropWhile_gt {α : Type} {p : Int} :
    ∀ {m : List (Int × α)}, SortedKeys m →
      ∀ {e : Int × α}, e ∈ m.dropWhile (fun e => e.1 ≤ p) → p < e.1 := by
  intro m
  induction m with
  | nil => intro _ e he; simp at he
  | cons a l ih =>
    intro h e he
    obtain ⟨hlt, hl⟩ := sortedKeys_cons h
    by_cases ha : a.1 ≤ p
    · rw [List.dropWhile_cons, if_pos (by simpa using ha)] at he
      exact ih hl he
    · rw [List.dropWhile_cons, if_neg (by simpa using ha)] at he
      rcases List.mem_cons.mp he with rfl | he'
      · exact lt_of_not_le ha
      · exact lt_trans (lt_of_not_le ha) (hlt _ he')

theorem mem_takeWhile_le {α : Type} {p : Int} {m : List (Int × α)}
    {e : Int × α} (he : e ∈ m.takeWhile (fun e => e.1 ≤ p)) : e.1 ≤ p := by
  simpa using List.mem_takeWhile_imp he

theorem sortedKeys_takeWhile {α : Type} {p : Int} {m : List (Int × α)}
    (h : SortedKeys m) : SortedKeys (m.takeWhile (fun e => e.1 ≤ p)) := by
  rw [SortedKeys] at h ⊢
  exact List.Pairwise.sublist (List.takeWhile_sublist _) h

/-! ### Claim C1: `get_past_tree` -/

/-- Claim C1 as frozen is false at this input: the cache `[(5, t)]` is
non-empty and contains no key `≤ 3`, yet `get_past_tree` with copy-from
revision 3 reports an error (returns `none`, modelling the `nullptr`
return after `status.error`) instead of returning the greatest-keyed
entry as the claimed lenient fallback would. -/
theorem get_past_tree_no_lenient_fallback :
    get_past_tree [((5 : Int), (0 : Nat))] 3 = none ∧
    ([((5 : Int), (0 : Nat))] : List (Int × Nat)) ≠ [] ∧
    ∀ e ∈ [((5 : Int), (0 : Nat))], ¬ e.1 ≤ 3 := by decide

/-- Claim C1 (amended): for a sorted cache, `get_past_tree s` returns the
entry with the greatest key `≤ s` whenever some key `≤ s` exists; in
every other case — the cache being empty, or non-empty with all keys
`> s` — the lookup fails with an error (`none`).  The lenient fallback
branch of the source (`i == end()`, cache non-empty) only ever fires when
every key is `≤ s`, so it, too, returns the greatest key `≤ s`. -/
theorem get_past_tree_spec {α : Type} (m : List (Int × α)) (s : Int)
    (h : SortedKeys m) :
    ((∃ e ∈ m, e.1 ≤ s) →
      ∃ k t, get_past_tree m s = some t ∧ (k, t) ∈ m ∧ k ≤ s ∧
        ∀ e ∈ m, e.1 ≤ s → e.1 ≤ k) ∧
    ((∀ e ∈ m, ¬ e.1 ≤ s) → get_past_tree m s = none) := by
  have hsplit : m.takeWhile (fun e => decide (e.1 ≤ s))
      ++ m.dropWhile (fun e => decide (e.1 ≤ s)) = m :=
    List.takeWhile_append_dropWhile (p := fun e => decide (e.1 ≤ s)) (l := m)
  cases hdw : m.dropWhile (fun e => decide (e.1 ≤ s)) with
  | nil =>
    -- i == end(): every element of m is in the takeWhile part
    have hm : m.takeWhile (fun e => decide (e.1 ≤ s)) = m := by
      rw [hdw] at hsplit; simpa using hsplit
    constructor
    · rintro ⟨e, he, -⟩
      have hne : m ≠ [] := by rintro rfl; simp at he
      have hlast := List.getLast_mem hne
      refine ⟨(m.getLast hne).1, (m.getLast hne).2, ?_, by simp [hlast], ?_, ?_⟩
      · simp only [get_past_tree, hdw]
        rw [List.getLast?_eq_getLast _ hne]
      · exact mem_takeWhile_le (p := s) (by rw [hm]; exact hlast)
      · intro e' he' _
        exact le_getLast_of_mem h hne he'
    · intro hnone
      have hnil : m = [] := by
        cases hm' : m with
        | nil => rfl
        | cons a l =>
          have ha : a ∈ m.takeWhile (fun e => decide (e.1 ≤ s)) := by
            rw [hm, hm']; exact List.mem_cons_self a l
          exact absurd (mem_takeWhile_le (p := s) ha)
            (hnone a (by rw [hm']; exact List.mem_cons_self a l))
      subst hnil
      simp [get_past_tree]
  | cons a dtl =>
    cases htw : m.takeWhile (fun e => decide (e.1 ≤ s)) with
    | nil =>
      -- i == begin(): no key ≤ s exists; fall through to the error
      have hdweq : m.dropWhile (fun e => decide (e.1 ≤ s)) = m := by
        rw [htw] at hsplit; simpa using hsplit
      have hall : ∀ e ∈ m, ¬ e.1 ≤ s := by
        intro e he hle
        have hmem : e ∈ m.dropWhile (fun e => decide (e.1 ≤ s)) := by
          rw [hdweq]; exact he
        exact absurd hle (not_le_of_lt (mem_dropWhile_gt h hmem))
      refine ⟨?_, ?_⟩
      · rintro ⟨e, he, hle⟩; exact absurd hle (hall e he)
      · intro _
        simp [get_past_tree, hdw, htw]
    | cons b ttl =>
      -- i != begin(): return the last element before the bound
      have htne : m.takeWhile (fun e => decide (e.1 ≤ s)) ≠ [] := by
        rw [htw]; simp
      have hlastmem := List.getLast_mem htne
      have hlastm : (m.takeWhile (fun e => decide (e.1 ≤ s))).getLast htne ∈ m :=
        (List.takeWhile_sublist _).subset hlastmem
      have hres : get_past_tree m s =
          some ((m.takeWhile (fun e => decide (e.1 ≤ s))).getLast htne).2 := by
        simp only [get_past_tree, hdw]
        rw [List.getLast?_eq_getLast _ htne]
      refine ⟨?_, ?_⟩
      · intro _
        refine ⟨((m.takeWhile (fun e => decide (e.1 ≤ s))).getLast htne).1,
          ((m.takeWhile (fun e => decide (e.1 ≤ s))).getLast htne).2,
          hres, by simpa using hlastm, mem_takeWhile_le (p := s) hlastmem, ?_⟩
        intro e he hle
        have he' : e ∈ m.takeWhile (fun e => decide (e.1 ≤ s))
            ++ m.dropWhile (fun e => decide (e.1 ≤ s)) := by rw [hsplit]; exact he
        rcases List.mem_append.mp he' with h1 | h2
        · exact le_getLast_of_mem (sortedKeys_takeWhile h) htne h1
        · exact absurd hle (not_le_of_lt (mem_dropWhile_gt h h2))
      · intro hnone
        exact absurd (mem_takeWhile_le (p := s) hlastmem) (hnone _ hlastm)

/-- Witness for `get_past_tree_spec` on the concrete cache
`[(1, 10), (3, 30)]` with copy-from revision 2: key 1 is the greatest
key `≤ 2` and its entry is returned. -/
theorem get_past_tree_spec_witness :
    ∃ k t, get_past_tree [((1 : Int), (10 : Nat)), (3, 30)] 2 = some t ∧
      (k, t) ∈ [((1 : Int), (10 : Nat)), (3, 30)] ∧ k ≤ 2 ∧
      ∀ e ∈ [((1 : Int), (10 : Nat)), (3, 30)], e.1 ≤ 2 → e.1 ≤ k :=
  (get_past_tree_spec [((1 : Int), (10 : Nat)), (3, 30)] 2 (by decide)).1
    ⟨(1, 10), by decide, by decide⟩

/-! ### Claim C2: `free_past_trees` -/

theorem pop_copy_from_eq (lastRev : Int) :
    ∀ (cf : List (Int × Int)) (v : Int),
      pop_copy_from lastRev cf v =
        (cf.dropWhile (fun r => decide (lastRev > r.2 ∧ lastRev > r.1)),
         (((cf.takeWhile (fun r => decide (lastRev > r.2 ∧ lastRev > r.1))).getLast?).map
            (fun r => r.2)).getD v) := by
  intro cf
  induction cf with
  | nil => intro v; simp [pop_copy_from]
  | cons r rest ih =>
    intro v
    obtain ⟨d, s⟩ := r
    by_cases hc : lastRev > s ∧ lastRev > d
    · rw [pop_copy_from, if_pos hc, ih s]
      simp only [List.dropWhile_cons, List.takeWhile_cons]
      rw [if_pos (by simpa using hc), if_pos (by simpa using hc)]
      cases htw : rest.takeWhile (fun r => decide (lastRev > r.2 ∧ lastRev > r.1)) with
      | nil => simp
      | cons b ttl =>
        have hbl : b :: ttl ≠ [] := by simp
        simp [List.getLast?_eq_getLast _ hbl]
    · rw [pop_copy_from, if_neg hc]
      simp only [List.dropWhile_cons, List.takeWhile_cons]
      rw [if_neg (by simpa using hc), if_neg (by simpa using hc)]
      simp

theorem drop_length_sub_one {α : Type} :
    ∀ (l : List α) (h : l ≠ []), l.drop (l.length - 1) = [l.getLast h] := by
  intro l
  induction l with
  | nil => intro h; exact absurd rfl h
  | cons a t ih =>
    intro _
    cases t with
    | nil => rfl
    | cons b t' =>
      have h2 : b :: t' ≠ [] := by simp
      rw [List.getLast_cons h2]
      have hlen : (a :: b :: t').length - 1 = (b :: t').length - 1 + 1 := by simp
      rw [hlen, List.drop_succ_cons]
      exact ih h2

theorem filter_not_lt_getLast {α : Type} :
    ∀ (l : List (Int × α)) (_ : SortedKeys l) (hne : l ≠ []),
      l.filter (fun e => ! decide (e.1 < (l.getLast hne).1)) = [l.getLast hne] := by
  intro l
  induction l with
  | nil => intro _ h; exact absurd rfl h
  | cons a t ih =>
    intro h hne
    obtain ⟨hlt, ht⟩ := sortedKeys_cons h
    cases t with
    | nil => simp
    | cons b t' =>
      have h2 : b :: t' ≠ [] := by simp
      rw [List.getLast_cons h2]
      have ha : a.1 < ((b :: t').getLast h2).1 := hlt _ (List.getLast_mem h2)
      rw [List.filter_cons, if_neg (by simp [ha])]
      exact ih ht h2

theorem prune_rev_trees_of_takeWhile_nil {α : Type} (rt : List (Int × α)) (p : Int)
    (h : rt.takeWhile (fun e => decide (e.1 ≤ p)) = []) :
    prune_rev_trees rt p = rt := by
  simp [prune_rev_trees, h]

/-- When some cache key is `≤ popped`, pruning keeps exactly the entries
whose keys are not strictly below the greatest key `≤ popped` (`me` being
the greatest such entry). -/
theorem prune_rev_trees_filter {α : Type} (rt : List (Int × α)) (p : Int)
    (hs : SortedKeys rt) {me : Int × α}
    (hme : (rt.takeWhile (fun e => decide (e.1 ≤ p))).getLast? = some me) :
    prune_rev_trees rt p = rt.filter (fun e => ! decide (e.1 < me.1)) := by
  have htne : rt.takeWhile (fun e => decide (e.1 ≤ p)) ≠ [] := by
    intro hnil; rw [hnil] at hme; simp at hme
  have hmeval : me = (rt.takeWhile (fun e => decide (e.1 ≤ p))).getLast htne := by
    rw [List.getLast?_eq_getLast _ htne] at hme
    exact (Option.some_inj.mp hme).symm
  have htwsorted : SortedKeys (rt.takeWhile (fun e => decide (e.1 ≤ p))) :=
    sortedKeys_takeWhile hs
  have hsplit : rt.takeWhile (fun e => decide (e.1 ≤ p))
      ++ rt.dropWhile (fun e => decide (e.1 ≤ p)) = rt :=
    List.takeWhile_append_dropWhile (p := fun e => decide (e.1 ≤ p)) (l := rt)
  have hlhs : prune_rev_trees rt p =
      rt.drop ((rt.takeWhile (fun e => decide (e.1 ≤ p))).length - 1) := by
    simp only [prune_rev_trees]
    rw [if_neg (by simp [htne])]
  have hdrop := @List.drop_append_of_le_length _
    (rt.takeWhile (fun e => decide (e.1 ≤ p)))
    (rt.dropWhile (fun e => decide (e.1 ≤ p)))
    ((rt.takeWhile (fun e => decide (e.1 ≤ p))).length - 1)
    (Nat.sub_le _ _)
  rw [hsplit] at hdrop
  have hfiltw : (rt.takeWhile (fun e => decide (e.1 ≤ p))).filter
      (fun e => ! decide (e.1 < me.1)) = [me] := by
    rw [hmeval]
    exact filter_not_lt_getLast _ htwsorted htne
  have hfildw : (rt.dropWhile (fun e => decide (e.1 ≤ p))).filter
      (fun e => ! decide (e.1 < me.1)) = rt.dropWhile (fun e => decide (e.1 ≤ p)) := by
    apply List.filter_eq_self.mpr
    intro e he
    have h1 : p < e.1 := mem_dropWhile_gt hs he
    have h2 : me.1 ≤ p := mem_takeWhile_le (p := p) (hmeval ▸ List.getLast_mem htne)
    simp only [Bool.not_eq_eq_eq_not, Bool.not_true, decide_eq_false_iff_not]
    omega
  calc prune_rev_trees rt p
      = (rt.takeWhile (fun e => decide (e.1 ≤ p))).drop
          ((rt.takeWhile (fun e => decide (e.1 ≤ p))).length - 1)
        ++ rt.dropWhile (fun e => decide (e.1 ≤ p)) := by rw [hlhs, hdrop]
    _ = [(rt.takeWhile (fun e => decide (e.1 ≤ p))).getLast htne]
        ++ rt.dropWhile (fun e => decide (e.1 ≤ p)) := by
          rw [drop_length_sub_one _ htne]
    _ = [me] ++ rt.dropWhile (fun e => decide (e.1 ≤ p)) := by rw [← hmeval]
    _ = rt.filter (fun e => ! decide (e.1 < me.1)) := by
          conv_rhs => rw [← hsplit]
          rw [List.filter_append, hfiltw, hfildw]

/-- Claim C2 as frozen is false at this input: with `last_rev = 7`,
reservations `[(5, 3), (6, 1)]` and cache keys `{1, 2, 3}`, both
reservations are popped; the largest popped source revision is 3, so the
claim demands that the keys 1 and 2 (those strictly below the greatest
key `≤ 3`) be discarded, leaving `[(3, 30)]`.  The code instead takes
`p = 1`, the source revision of the *last* pop, and discards nothing. -/
theorem free_past_trees_not_largest_popped :
    free_past_trees 7 [((5 : Int), (3 : Int)), (6, 1)]
        [((1 : Int), (10 : Nat)), (2, 20), (3, 30)]
      = ([], [((1 : Int), (10 : Nat)), (2, 20), (3, 30)]) ∧
    pop_copy_from 7 [((5 : Int), (3 : Int)), (6, 1)] (-1) = ([], 1) ∧
    prune_rev_trees [((1 : Int), (10 : Nat)), (2, 20), (3, 30)] 3 = [(3, 30)] ∧
    ([((1 : Int), (10 : Nat)), (2, 20), (3, 30)] : List (Int × Nat)) ≠ [(3, 30)] := by
  decide

/-- Claim C2 (amended): at a revision boundary the code pops each
reservation `(d, s)` from the front while `last_rev > d` and
`last_rev > s` (i.e. removes the maximal such prefix), and takes `p` to be
the `s` of the *last* reservation popped — not the largest popped `s`.
When something was popped with `p ≥ 0` and the cache has a key `≤ p`, it
then discards exactly those cache entries whose keys are strictly less
than the greatest cache key `≤ p`; in every other case the cache is left
unchanged. -/
theorem free_past_trees_spec {α : Type} (lastRev : Int) (cf : List (Int × Int))
    (rt : List (Int × α)) (hs : SortedKeys rt) :
    (free_past_trees lastRev cf rt).1 =
      cf.dropWhile (fun r => decide (lastRev > r.2 ∧ lastRev > r.1)) ∧
    ((cf.takeWhile (fun r => decide (lastRev > r.2 ∧ lastRev > r.1))).getLast? = none →
      (free_past_trees lastRev cf rt).2 = rt) ∧
    (∀ dp : Int × Int,
      (cf.takeWhile (fun r => decide (lastRev > r.2 ∧ lastRev > r.1))).getLast? = some dp →
      (dp.2 < 0 → (free_past_trees lastRev cf rt).2 = rt) ∧
      ((rt.takeWhile (fun e => decide (e.1 ≤ dp.2))).getLast? = none →
        (free_past_trees lastRev cf rt).2 = rt) ∧
      (∀ me : Int × α,
        (rt.takeWhile (fun e => decide (e.1 ≤ dp.2))).getLast? = some me →
        0 ≤ dp.2 →
        (free_past_trees lastRev cf rt).2 =
          rt.filter (fun e => ! decide (e.1 < me.1)))) := by
  have hpop := pop_copy_from_eq lastRev cf (-1)
  refine ⟨?_, ?_, ?_⟩
  · rw [free_past_trees]
    rcases le_or_lt 0 (pop_copy_from lastRev cf (-1)).2 with hge | hlt
    · rw [if_pos hge]
      simp [hpop]
    · rw [if_neg (not_le_of_lt hlt)]
      simp [hpop]
  · intro hnone
    rw [free_past_trees, hpop]
    simp only [hnone, Option.map_none, Option.getD_none]
    rw [if_neg (by norm_num)]
  · intro dp hsome
    have hval : (pop_copy_from lastRev cf (-1)).2 = dp.2 := by
      rw [hpop, hsome]; simp
    refine ⟨?_, ?_, ?_⟩
    · intro hneg
      rw [free_past_trees, if_neg (by rw [hval]; exact not_le_of_lt hneg)]
    · intro htwnil
      rcases le_or_lt 0 dp.2 with hge | hlt
      · rw [free_past_trees, if_pos (by rw [hval]; exact hge), hval]
        exact prune_rev_trees_of_takeWhile_nil rt dp.2
          (by simpa using htwnil)
      · rw [free_past_trees, if_neg (by rw [hval]; exact not_le_of_lt hlt)]
    · intro me hme hge
      rw [free_past_trees, if_pos (by rw [hval]; exact hge), hval]
      exact prune_rev_trees_filter rt dp.2 hs hme

/-- Witness for `free_past_trees_spec`: `last_rev = 9` pops both
reservations, `p = 4` is the last popped source revision, the greatest
cache key `≤ 4` is 3, and the cache entries with keys below 3 are
discarded. -/
theorem free_past_trees_spec_witness :
    (free_past_trees 9 [((5 : Int), (2 : Int)), (6, 4)]
        [((1 : Int), (10 : Nat)), (3, 30), (7, 70)]).2 =
      [((3 : Int), (30 : Nat)), (7, 70)] := by
  have h := (free_past_trees_spec 9 [((5 : Int), (2 : Int)), (6, 4)]
    [((1 : Int), (10 : Nat)), (3, 30), (7, 70)] (by decide)).2.2
    (6, 4) (by decide)
  have h2 := h.2.2 (3, 30) (by decide) (by decide)
  rw [h2]
  decide

/-! ## Dump nodes

`SvnDump::File::Node` carries a kind, an action, a pathname and optional
copy-from data (src/unnamed/part_004, the svndump header: `Kind`,
`Action`, `pathname`, `copy_from_rev`/`copy_from_path` with
`has_copy_from()` testing the optional). -/

/-- `SvnDump::File::Node::Kind`. -/
inductive NodeKind where
  | kindNone
  | file
  | dir
deriving DecidableEq

/-- `SvnDump::File::Node::Action`. -/
inductive NodeAction where
  | actionNone
  | add
  | delete
  | change
  | replace
deriving DecidableEq

/-- A `boost::filesystem::path`, as its list of segments; `parent_path`
is `dropLast`. -/
abbrev SvnPath := List String

/-! ### Claim C3: routing in `process_change` -/

/-- The handler that `ConvertRepository::process_change` dispatches a
node to (`add_file`, `delete_item`, `add_directory`), or none of them
(the `Change ignored` fall-through). -/
inductive ChangeHandler where
  | addFile
  | deleteItem
  | addDirectory
  | ignored
deriving DecidableEq

/-- Embedding of the dispatch logic of `ConvertRepository::process_change`
(src/src/converter.cpp, lines 441-466): files with action add or change go
to `add_file`; deletes go to `delete_item`; directories with copy-from and
action add go to `add_directory`; everything else is ignored with a debug
message. -/
def process_change (kind : NodeKind) (action : NodeAction)
    (hasCopyFrom : Bool) : ChangeHandler :=
  if kind = NodeKind.file ∧
      (action = NodeAction.add ∨ action = NodeAction.change) then
    ChangeHandler.addFile
  else if action = NodeAction.delete then
    ChangeHandler.deleteItem
  else if hasCopyFrom ∧ kind = NodeKind.dir ∧ action = NodeAction.add then
    ChangeHandler.addDirectory
  else
    ChangeHandler.ignored

/-- Claim C3 as frozen is false: a file node with action replace is
ignored while a file add goes to `add_file`, and a directory replace with
copy-from is ignored while a directory add with copy-from goes to
`add_directory` — replace is not routed like add. -/
theorem process_change_replace_differs_from_add :
    process_change NodeKind.file NodeAction.replace false = ChangeHandler.ignored ∧
    process_change NodeKind.file NodeAction.add false = ChangeHandler.addFile ∧
    process_change NodeKind.dir NodeAction.replace true = ChangeHandler.ignored ∧
    process_change NodeKind.dir NodeAction.add true = ChangeHandler.addDirectory ∧
    process_change NodeKind.file NodeAction.replace false ≠
      process_change NodeKind.file NodeAction.add false := by decide

/-- Claim C3 (amended): a node with action replace is never dispatched to
any handler — for every kind and copy-from status it falls through to the
`Change ignored` branch, rather than being treated as an add. -/
theorem process_change_replace_ignored (kind : NodeKind) (hasCopyFrom : Bool) :
    process_change kind NodeAction.replace hasCopyFrom = ChangeHandler.ignored := by
  cases kind <;> cases hasCopyFrom <;> decide

/-! ### Claim C4: the commit signature of `establish_commit_info` -/

/-- The `git_signature` built by `establish_commit_info`. -/
structure GitSignature where
  name : String
  email : String
  date : Int
deriving DecidableEq

/-- Embedding of the signature half of
`ConvertRepository::establish_commit_info` (src/src/converter.cpp, lines
119-135): an empty author id returns early, leaving no signature; a
mapped author uses the table's name and email; an unmapped author warns
and builds the signature from the raw id with the fixed address
`unknown@unknown.org`. -/
def establish_signature (authors : List (String × (String × String)))
    (authorId : String) (revDate : Int) : Option GitSignature :=
  if authorId = "" then none
  else
    match authors.find? (fun a => a.1 = authorId) with
    | some a => some { name := a.2.1, email := a.2.2, date := revDate }
    | none =>
      some { name := authorId, email := "unknown@unknown.org", date := revDate }

/-- Claim C4 as frozen is false: with an authors table that lacks `bob`,
the emitted signature carries the email `unknown@unknown.org`, not the
empty string. -/
theorem establish_signature_email_not_empty :
    establish_signature [("alice", ("Alice", "alice@example.com"))] "bob" 0 =
      some { name := "bob", email := "unknown@unknown.org", date := 0 } ∧
    (establish_signature [("alice", ("Alice", "alice@example.com"))] "bob" 0).map
      GitSignature.email ≠ some "" := by decide

/-- Claim C4 (amended): for every revision whose non-empty author id is
not present in the loaded authors table, the emitted commit signature
uses the raw author id as the name and the fixed address
`unknown@unknown.org` (not the empty string) as the email. -/
theorem establish_signature_unmapped (authors : List (String × (String × String)))
    (authorId : String) (revDate : Int) (hne : authorId ≠ "")
    (hun : ∀ a ∈ authors, a.1 ≠ authorId) :
    establish_signature authors authorId revDate =
      some { name := authorId, email := "unknown@unknown.org", date := revDate } := by
  rw [establish_signature, if_neg hne, List.find?_eq_none.mpr (by simpa using hun)]

/-- Witness for `establish_signature_unmapped` on a one-entry table and
the unmapped id `bob`. -/
theorem establish_signature_unmapped_witness :
    establish_signature [("alice", ("Alice", "alice@example.com"))] "bob" 42 =
      some { name := "bob", email := "unknown@unknown.org", date := 42 } :=
  establish_signature_unmapped [("alice", ("Alice", "alice@example.com"))] "bob" 42
    (by decide) (by decide)

/-! ### Claim C5: the commit message of `establish_commit_info` -/

/-- The whitespace characters stripped by the log-trimming loops of
`establish_commit_info`. -/
def isLogSpace (c : Char) : Bool :=
  c = ' ' ∨ c = '\t' ∨ c = '\n' ∨ c = '\r'

/-- `beg` after the first trimming loop of `establish_commit_info`
(src/src/converter.cpp, lines 142-145): the number of leading whitespace
characters (the loop is bounded by `beg < len`, i.e. by the string's
length). -/
def log_trim_beg : List Char → Nat
  | [] => 0
  | c :: rest => if isLogSpace c then log_trim_beg rest + 1 else 0

/-- `len` after the second trimming loop (src/src/converter.cpp, lines
146-148): `len` is decremented from the string's length while
`(*log)[len - 1]` is whitespace.  The source loop has no `len > 0` guard
(on an all-whitespace log it reads one character before the buffer);
here the loop stops at 0. -/
def log_trim_len (l : List Char) : Nat :=
  (l.reverse.dropWhile isLogSpace).length

/-- Embedding of the message half of
`ConvertRepository::establish_commit_info` (src/src/converter.cpp, lines
137-163).  When a log message is present and `len` is non-zero the source
streams `std::string(*log, beg, len)` — the substring constructor whose
third argument is a character COUNT, so it extracts `len` characters
starting at `beg` (not the range from `beg` to position `len`) — then a
blank line; the message always ends with `SVN-Revision: <rev>`. -/
def establish_commit_log (log : Option (List Char)) (rev : Int) : List Char :=
  let svnSuffix := ("SVN-Revision: " ++ toString rev).toList
  match log with
  | some l =>
    let beg := log_trim_beg l
    let len := log_trim_len l
    if len ≠ 0 then ((l.drop beg).take len) ++ ('\n' :: '\n' :: svnSuffix)
    else svnSuffix
  | none => svnSuffix

/-- Claim C5 at the failing input: the log `" a "` (leading and trailing
whitespace) trims to `beg = 1`, `len = 2`, and
`std::string(*log, beg, len)` then extracts the two characters `"a "`
starting at index 1 — the trailing space survives, so the message is
`"a \n\nSVN-Revision: 1"` instead of the claimed
`"a\n\nSVN-Revision: 1"`.  (The intended range was `[beg, len)`, i.e.
count `len - beg`.) -/
theorem establish_commit_log_failing_input :
    establish_commit_log (some (" a ".toList)) 1 = "a \n\nSVN-Revision: 1".toList ∧
    "a \n\nSVN-Revision: 1".toList ≠ "a\n\nSVN-Revision: 1".toList := by decide

/-! ### Claim C6: `prescan` -/

/-- Embedding of the branch lookup loop of
`Git::Repository::find_branch_by_path` (src/src/gitutil.cpp, lines
920-946) as called from `prescan` (no default object): walk `dirname`
from the full pathname through its parents (`parent_path`, i.e.
`dropLast`) until empty, returning the first branch whose prefix matches
exactly; `none` models the `nullptr` return.  The walk shortens the path
each step, so it is driven by a step counter equal to the path length. -/
def find_branch_loop {β : Type} (branchesByPath : List (SvnPath × β)) :
    Nat → SvnPath → Option β
  | 0, _ => none
  | _ + 1, [] => none
  | steps + 1, a :: rest =>
    match branchesByPath.find? (fun e => e.1 = a :: rest) with
    | some e => some e.2
    | none => find_branch_loop branchesByPath steps (a :: rest).dropLast

/-- `Git::Repository::find_branch_by_path` without a default object. -/
def find_branch_by_path {β : Type} (branchesByPath : List (SvnPath × β))
    (pathname : SvnPath) : Option β :=
  find_branch_loop branchesByPath pathname.length pathname

/-- One dump node as consulted by `ConvertRepository::prescan`: its
revision number and author, kind, action, path, and optional copy-from
`(path, revision)`. -/
structure PrescanNode where
  revNr : Int
  revAuthor : String
  kind : NodeKind
  action : NodeAction
  path : SvnPath
  copyFrom : Option (SvnPath × Int)
deriving DecidableEq

/-- Embedding of `ConvertRepository::prescan` (src/src/converter.cpp,
lines 376-439): (a) with a non-empty authors table, an unknown revision
author counts one error; (b) a copy-from observation is appended to the
reservation list unless it repeats the current tail; (c) with a non-empty
branch table, only nodes that delete, are files, or carry copy-from have
their path — and, if present, their copy-from path — looked up, each
failed lookup counting one error.  Returns the error count for this node
and the updated reservation list. -/
def prescan {β : Type} (authors : List (String × (String × String)))
    (branchesByPath : List (SvnPath × β)) (copyFrom : List (Int × Int))
    (node : PrescanNode) : Nat × List (Int × Int) :=
  let errors : Nat := 0
  let errors :=
    if ¬authors.isEmpty ∧ (authors.find? (fun a => a.1 = node.revAuthor)).isNone
    then errors + 1 else errors
  let copyFrom :=
    match node.copyFrom with
    | some cf =>
      if copyFrom.isEmpty ∨ ¬(copyFrom.getLast? = some (node.revNr, cf.2)) then
        copyFrom ++ [(node.revNr, cf.2)]
      else copyFrom
    | none => copyFrom
  let errors :=
    if ¬branchesByPath.isEmpty then
      if node.action = NodeAction.delete ∨ node.kind = NodeKind.file ∨
          node.copyFrom.isSome then
        let errors :=
          if (find_branch_by_path branchesByPath node.path).isNone
          then errors + 1 else errors
        match node.copyFrom with
        | some cf =>
          if (find_branch_by_path branchesByPath cf.1).isNone
          then errors + 1 else errors
        | none => errors
      else errors
    else errors
  (errors, copyFrom)

/-- Claim C6 as frozen is false: with a loaded branch table `{trunk}`, a
node that merely adds a directory (no copy-from) at a path that maps to
no branch produces zero prescan errors — its path is never checked. -/
theorem prescan_skips_plain_dir_add :
    prescan [] [((["trunk"] : SvnPath), ())] []
      { revNr := 1, revAuthor := "alice", kind := NodeKind.dir,
        action := NodeAction.add, path := ["elsewhere"], copyFrom := none }
      = (0, []) ∧
    find_branch_by_path [((["trunk"] : SvnPath), ())] ["elsewhere"] = none ∧
    ([((["trunk"] : SvnPath), ())] : List (SvnPath × Unit)) ≠ [] := by decide

theorem prefix_dropLast_or_eq {q p : SvnPath} (h : q <+: p) :
    q <+: p.dropLast ∨ q = p := by
  obtain ⟨t, rfl⟩ := h
  cases t with
  | nil => right; simp
  | cons c t' =>
    left
    rw [List.dropLast_append_cons]
    exact List.prefix_append _ _

/-- The branch walk fails exactly when no table entry's prefix is a
non-empty prefix of the pathname (the `dirname` chain visits every
non-empty prefix of the path). -/
theorem find_branch_loop_none_iff {β : Type} (m : List (SvnPath × β)) :
    ∀ (steps : Nat) (p : SvnPath), p.length ≤ steps →
      (find_branch_loop m steps p = none ↔
        ∀ q ∈ m, ¬(q.1 ≠ [] ∧ q.1 <+: p)) := by
  intro steps
  induction steps with
  | zero =>
    intro p hp
    have hnil : p = [] := List.length_eq_zero.mp (Nat.le_zero.mp hp)
    subst hnil
    simp [find_branch_loop, List.prefix_nil]
  | succ steps ih =>
    intro p hp
    cases p with
    | nil => simp [find_branch_loop, List.prefix_nil]
    | cons a rest =>
      rw [find_branch_loop]
      cases hf : m.find? (fun e => e.1 = a :: rest) with
      | some e =>
        have hmem := List.mem_of_find?_eq_some hf
        have heq : e.1 = a :: rest := by
          have := List.find?_some hf
          simpa using this
        simp only []
        constructor
        · intro h; cases h
        · intro hall
          exact absurd ⟨by simp [heq], heq ▸ List.prefix_refl _⟩ (hall e hmem)
      | none =>
        have hlen : (a :: rest).dropLast.length ≤ steps := by
          have := List.length_dropLast (a :: rest)
          simp at hp ⊢
          omega
        simp only []
        rw [ih (a :: rest).dropLast hlen]
        have hnone : ∀ q ∈ m, q.1 ≠ a :: rest := by
          intro q hq
          have := List.find?_eq_none.mp hf q hq
          simpa using this
        constructor
        · rintro hall q hq ⟨hne, hpre⟩
          rcases prefix_dropLast_or_eq hpre with h1 | h2
          · exact hall q hq ⟨hne, h1⟩
          · exact hnone q hq h2
        · rintro hall q hq ⟨hne, hpre⟩
          exact hall q hq ⟨hne, hpre.trans (List.dropLast_prefix _)⟩

theorem find_branch_by_path_none_iff {β : Type} (m : List (SvnPath × β))
    (p : SvnPath) :
    find_branch_by_path m p = none ↔ ∀ q ∈ m, ¬(q.1 ≠ [] ∧ q.1 <+: p) :=
  find_branch_loop_none_iff m p.length p le_rfl

/-- Claim C6 (amended): during prescan, the per-node error count is: one
error when an author table is loaded and the revision author is unknown,
plus — only for nodes that delete, are files, or carry copy-from, and
only when a branch table is loaded — one error when the node's path maps
to no declared branch and one more when its copy-from path (if present)
maps to no declared branch.  Nodes that merely add or change directories
without copy-from are not path-checked. -/
theorem prescan_spec {β : Type} (A : List (String × (String × String)))
    (B : List (SvnPath × β)) (cf : List (Int × Int)) (n : PrescanNode) :
    (prescan A B cf n).1 =
      (if ¬A.isEmpty ∧ ∀ a ∈ A, a.1 ≠ n.revAuthor then 1 else 0) +
      (if ¬B.isEmpty then
        if n.action = NodeAction.delete ∨ n.kind = NodeKind.file ∨
            n.copyFrom.isSome then
          (if ∀ q ∈ B, ¬(q.1 ≠ [] ∧ q.1 <+: n.path) then 1 else 0) +
          (match n.copyFrom with
           | some cfv => if ∀ q ∈ B, ¬(q.1 ≠ [] ∧ q.1 <+: cfv.1) then 1 else 0
           | none => 0)
        else 0
       else 0) := by
  have hAuthor : ((A.find? (fun a => a.1 = n.revAuthor)).isNone = true)
      ↔ ∀ a ∈ A, a.1 ≠ n.revAuthor := by
    rw [Option.isNone_iff_eq_none, List.find?_eq_none]; simp
  have hPath : ((find_branch_by_path B n.path).isNone = true)
      ↔ ∀ q ∈ B, ¬(q.1 ≠ [] ∧ q.1 <+: n.path) := by
    rw [Option.isNone_iff_eq_none]; exact find_branch_by_path_none_iff B n.path
  cases hcf : n.copyFrom with
  | none =>
    simp only [prescan, hcf, hAuthor, hPath, Option.isSome_none]
    split_ifs <;> omega
  | some cfv =>
    have hCf : ((find_branch_by_path B cfv.1).isNone = true)
        ↔ ∀ q ∈ B, ¬(q.1 ≠ [] ∧ q.1 <+: cfv.1) := by
      rw [Option.isNone_iff_eq_none]; exact find_branch_by_path_none_iff B cfv.1
    simp only [prescan, hcf, hAuthor, hPath, hCf, Option.isSome_some]
    split_ifs <;> omega

/-! ## Git repository flushing (`src/src/gitutil.cpp`)

Commit and reference objects are heap-allocated in the source; identity
is pointer identity, modelled by `Nat` identifiers.  A branch is
addressed by its name; the branch table is a total map from names to
branch states. -/

/-- The fields of `Git::Branch` read and written by `Repository::write`,
`Repository::delete_branch` and `Branch::get_commit`: the branch's last
`commit`, its pending `next_commit`, and its `git_ref` reference — each a
possibly-null pointer. -/
structure BranchState where
  commitId : Option Nat
  nextCommitId : Option Nat
  gitRef : Option Nat
deriving DecidableEq

/-! ### Claim C7: `Repository::write` and `delete_branch` -/

/-- One entry of `Repository::commit_queue`: the queued commit's branch
(`commit->branch`, by name), the commit's identity, and whether it has a
tree (`commit->has_tree()`). -/
structure QueuedCommit where
  branchName : String
  commitId : Nat
  hasTree : Bool
deriving DecidableEq

/-- Pointwise update of the branch table at one name. -/
def updateBranch (branches : String → BranchState) (name : String)
    (b : BranchState) : String → BranchState :=
  fun n => if n = name then b else branches n

/-- Embedding of `Repository::delete_branch` (src/src/gitutil.cpp, lines
948-970): when the branch has a last commit, create the tag
`<name>__deleted_r<revision>` pointing at it; then null the branch's
`git_ref`, `commit` and `next_commit`.  Returns the extended tag list and
the cleared branch. -/
def delete_branch (tags : List (String × Nat)) (name : String)
    (b : BranchState) (relatedRevision : Int) :
    List (String × Nat) × BranchState :=
  let tags :=
    match b.commitId with
    | some c => tags ++ [(name ++ "__deleted_r" ++ toString relatedRevision, c)]
    | none => tags
  (tags, { commitId := none, nextCommitId := none, gitRef := none })

/-- The loop of `Repository::write` (src/src/gitutil.cpp, lines 841-886)
over the commit queue: reset the branch's `next_commit`; a commit with a
tree is written and installed as the branch's `commit` (counting one
modified branch); a commit without a tree goes through `delete_branch`.
Returns the final branch table, tag list and `branches_modified` count. -/
def write_queue (relatedRevision : Int) (branches : String → BranchState)
    (tags : List (String × Nat)) :
    List QueuedCommit → (String → BranchState) × List (String × Nat) × Nat
  | [] => (branches, tags, 0)
  | qc :: rest =>
    let b := branches qc.branchName
    let b := { b with nextCommitId := none }
    if qc.hasTree then
      let branches := updateBranch branches qc.branchName
        { b with commitId := some qc.commitId }
      let r := write_queue relatedRevision branches tags rest
      (r.1, r.2.1, r.2.2 + 1)
    else
      let r0 := delete_branch tags qc.branchName b relatedRevision
      let branches := updateBranch branches qc.branchName r0.2
      write_queue relatedRevision branches r0.1 rest

/-- Embedding of `Repository::write` (src/src/gitutil.cpp, lines 837-890):
process the queue, clear it, and return `branches_modified > 0` together
with the new branch table and tag list. -/
def repository_write (relatedRevision : Int) (branches : String → BranchState)
    (tags : List (String × Nat)) (queue : List QueuedCommit) :
    (String → BranchState) × List (String × Nat) × Bool :=
  let r := write_queue relatedRevision branches tags queue
  (r.1, r.2.1, decide (r.2.2 > 0))

theorem write_queue_tags_prefix (relatedRevision : Int) :
    ∀ (queue : List QueuedCommit) (branches : String → BranchState)
      (tags : List (String × Nat)),
      tags <+: (write_queue relatedRevision branches tags queue).2.1 := by
  intro queue
  induction queue with
  | nil => intro branches tags; exact List.prefix_refl _
  | cons qc rest ih =>
    intro branches tags
    rw [write_queue]
    by_cases ht : qc.hasTree
    · rw [if_pos ht]
      exact ih _ _
    · rw [if_neg ht]
      cases hcid : (branches qc.branchName).commitId with
      | none =>
        simp only [delete_branch, hcid]
        exact ih _ _
      | some c =>
        simp only [delete_branch, hcid]
        exact List.IsPrefix.trans (List.prefix_append _ _) (ih _ _)

theorem write_queue_untouched (relatedRevision : Int) :
    ∀ (queue : List QueuedCommit) (branches : String → BranchState)
      (tags : List (String × Nat)) (name : String),
      name ∉ queue.map QueuedCommit.branchName →
      (write_queue relatedRevision branches tags queue).1 name = branches name := by
  intro queue
  induction queue with
  | nil => intro branches tags name _; rfl
  | cons qc rest ih =>
    intro branches tags name hname
    have hne : name ≠ qc.branchName := by
      intro h; exact hname (by simp [h])
    have hrest : name ∉ rest.map QueuedCommit.branchName := by
      intro h; exact hname (by simp [h])
    rw [write_queue]
    by_cases ht : qc.hasTree
    · rw [if_pos ht]
      dsimp only
      rw [ih _ _ _ hrest, updateBranch, if_neg hne]
    · rw [if_neg ht]
      rw [ih _ _ _ hrest, updateBranch, if_neg hne]

theorem write_queue_count (relatedRevision : Int) :
    ∀ (queue : List QueuedCommit) (branches : String → BranchState)
      (tags : List (String × Nat)),
      (write_queue relatedRevision branches tags queue).2.2 =
        queue.countP (fun q => q.hasTree) := by
  intro queue
  induction queue with
  | nil => intro branches tags; simp [write_queue]
  | cons qc rest ih =>
    intro branches tags
    rw [write_queue, List.countP_cons]
    by_cases ht : qc.hasTree
    · rw [if_pos ht]
      dsimp only
      rw [ih]
      simp [ht]
    · rw [if_neg ht]
      rw [ih]
      simp [ht]

/-- Claim C7: when a pending commit with no tree is flushed, its branch
goes through the deleted transition — if the branch had a last commit, a
tag `<name>__deleted_r<revision>` pointing at that commit is among the
final tags, and the branch's `commit`, `next_commit` and `git_ref` are
all cleared; and the flush returns true iff at least one queued commit
carried a tree, i.e. iff some branch received a written commit.  (One
pending commit per branch per flush, hence the `Nodup` hypothesis.) -/
theorem write_queue_deleted_clears (relatedRevision : Int) :
    ∀ (queue : List QueuedCommit) (branches : String → BranchState)
      (tags : List (String × Nat)) (qc : QueuedCommit),
      (queue.map QueuedCommit.branchName).Nodup →
      qc ∈ queue → qc.hasTree = false →
      (write_queue relatedRevision branches tags queue).1 qc.branchName
        = { commitId := none, nextCommitId := none, gitRef := none } := by
  intro queue
  induction queue with
  | nil => intro _ _ _ _ h; cases h
  | cons q0 rest ih =>
    intro branches tags qc hnodup hqc hnt
    rcases List.mem_cons.mp hqc with rfl | hmem
    · -- qc is at the head: delete_branch runs, then the rest never
      -- touches this branch again
      rw [write_queue, if_neg (by simp [hnt])]
      have hnot : qc.branchName ∉ rest.map QueuedCommit.branchName :=
        (List.nodup_cons.mp hnodup).1
      rw [write_queue_untouched relatedRevision rest _ _ _ hnot,
        updateBranch, if_pos rfl]
      rfl
    · -- qc is in the tail
      rw [write_queue]
      by_cases ht : q0.hasTree
      · rw [if_pos ht]
        dsimp only
        exact ih _ _ _ (List.nodup_cons.mp hnodup).2 hmem hnt
      · rw [if_neg ht]
        exact ih _ _ _ (List.nodup_cons.mp hnodup).2 hmem hnt

theorem write_queue_deleted_tag (relatedRevision : Int) :
    ∀ (queue : List QueuedCommit) (branches : String → BranchState)
      (tags : List (String × Nat)) (qc : QueuedCommit) (c : Nat),
      (queue.map QueuedCommit.branchName).Nodup →
      qc ∈ queue → qc.hasTree = false →
      (branches qc.branchName).commitId = some c →
      (qc.branchName ++ "__deleted_r" ++ toString relatedRevision, c)
        ∈ (write_queue relatedRevision branches tags queue).2.1 := by
  intro queue
  induction queue with
  | nil => intro _ _ _ _ _ h; cases h
  | cons q0 rest ih =>
    intro branches tags qc c hnodup hqc hnt hc
    rcases List.mem_cons.mp hqc with rfl | hmem
    · rw [write_queue, if_neg (by simp [hnt])]
      simp only [delete_branch, hc]
      have hpre := write_queue_tags_prefix relatedRevision rest
        (updateBranch branches qc.branchName
          { commitId := none, nextCommitId := none, gitRef := none })
        (tags ++ [(qc.branchName ++ "__deleted_r" ++ toString relatedRevision, c)])
      exact hpre.subset (by simp)
    · have hne : qc.branchName ≠ q0.branchName := by
        intro h
        exact (List.nodup_cons.mp hnodup).1 (h ▸ List.mem_map_of_mem _ hmem)
      have hc' : ∀ (B : String → BranchState) (bst : BranchState),
          (updateBranch B q0.branchName bst) qc.branchName = B qc.branchName := by
        intro B bst
        rw [updateBranch, if_neg hne]
      rw [write_queue]
      by_cases ht : q0.hasTree
      · rw [if_pos ht]
        dsimp only
        exact ih _ _ _ _ (List.nodup_cons.mp hnodup).2 hmem hnt (by rw [hc', hc])
      · rw [if_neg ht]
        exact ih _ _ _ _ (List.nodup_cons.mp hnodup).2 hmem hnt (by rw [hc', hc])

theorem repository_write_deleted (relatedRevision : Int)
    (branches : String → BranchState) (tags : List (String × Nat))
    (queue : List QueuedCommit)
    (hnodup : (queue.map QueuedCommit.branchName).Nodup)
    (qc : QueuedCommit) (hqc : qc ∈ queue) (hnt : qc.hasTree = false) :
    ((repository_write relatedRevision branches tags queue).1 qc.branchName
       = { commitId := none, nextCommitId := none, gitRef := none }) ∧
    (∀ c, (branches qc.branchName).commitId = some c →
      (qc.branchName ++ "__deleted_r" ++ toString relatedRevision, c)
        ∈ (repository_write relatedRevision branches tags queue).2.1) ∧
    ((repository_write relatedRevision branches tags queue).2.2 = true ↔
      ∃ q ∈ queue, q.hasTree = true) := by
  refine ⟨?_, ?_, ?_⟩
  · exact write_queue_deleted_clears relatedRevision queue branches tags qc
      hnodup hqc hnt
  · intro c hc
    exact write_queue_deleted_tag relatedRevision queue branches tags qc c
      hnodup hqc hnt hc
  · show decide ((write_queue relatedRevision branches tags queue).2.2 > 0) = true ↔ _
    rw [write_queue_count]
    simp [List.countP_pos_iff]

/-- Witness for `repository_write_deleted`: a one-element queue carrying a
treeless commit for branch `b`, whose last commit is 5: the branch is
cleared, the tag `b__deleted_r3` points at 5, and the flush reports no
modified branch. -/
theorem repository_write_deleted_witness :
    ((repository_write 3
        (fun _ => { commitId := some 5, nextCommitId := some 7, gitRef := some 1 })
        [] [{ branchName := "b", commitId := 7, hasTree := false }]).1 "b"
      = { commitId := none, nextCommitId := none, gitRef := none }) ∧
    (("b__deleted_r3", 5)
      ∈ (repository_write 3
          (fun _ => { commitId := some 5, nextCommitId := some 7, gitRef := some 1 })
          [] [{ branchName := "b", commitId := 7, hasTree := false }]).2.1) ∧
    ((repository_write 3
        (fun _ => { commitId := some 5, nextCommitId := some 7, gitRef := some 1 })
        [] [{ branchName := "b", commitId := 7, hasTree := false }]).2.2 = false) := by
  have h := repository_write_deleted 3
    (fun _ => { commitId := some 5, nextCommitId := some 7, gitRef := some 1 })
    [] [{ branchName := "b", commitId := 7, hasTree := false }]
    (by simp) { branchName := "b", commitId := 7, hasTree := false }
    (by simp) rfl
  refine ⟨h.1, ?_, ?_⟩
  · have := h.2.1 5 rfl
    simpa using this
  · have hiff := h.2.2
    rw [Bool.eq_false_iff]
    intro htrue
    rcases hiff.mp htrue with ⟨q, hq, hh⟩
    simp at hq
    subst hq
    simp at hh

/-! ### Claim C10: `Branch::get_commit` -/

/-- A `Git::Commit` as allocated by `Repository::create_commit` or
`Commit::clone`: its identity (allocation order), its parent commit, and
the `new_branch` flag. -/
structure CommitRec where
  id : Nat
  parent : Option Nat
  newBranch : Bool
deriving DecidableEq

/-- The repository state read and written by `Branch::get_commit`: the
`commit_queue` (commit identities, in push order) and the store of
allocated commits (heap allocation order; a fresh commit's identity is
the current allocation count). -/
structure GetCommitRepo where
  commitQueue : List Nat
  commits : List CommitRec
deriving DecidableEq

/-- `Repository::create_commit` (src/src/gitutil.cpp, lines 832-835) /
`Commit::clone` (lines 698-706): allocate a fresh commit object with the
given parent (clone passes the cloned commit). -/
def create_commit (repo : GetCommitRepo) (parent : Option Nat) :
    CommitRec × GetCommitRepo :=
  let c : CommitRec := { id := repo.commits.length, parent := parent, newBranch := false }
  (c, { repo with commits := repo.commits ++ [c] })

/-- `next_commit->new_branch = true` (src/src/gitutil.cpp, line 780). -/
def set_new_branch (repo : GetCommitRepo) (cid : Nat) : GetCommitRepo :=
  { repo with
    commits := repo.commits.map
      (fun x => if x.id = cid then { x with newBranch := true } else x) }

/-- Embedding of `Branch::get_commit` (src/src/gitutil.cpp, lines
750-792).  When `next_commit` is already set, it is returned, and it is
pushed onto the queue only if it is somehow absent from it (that re-push
sits under `assert(false)`, compiled out in release builds).  Otherwise
the pending commit is built — a clone of the branch's own commit; or,
for a branch being created from `from_branch`, a clone of that branch's
commit (or a parentless commit when `from_branch` is empty), flagged
`new_branch`; or a plain parentless commit — recorded as `next_commit`
and pushed onto the queue.  Returns the commit's identity, the updated
branch, and the updated repository. -/
def get_commit (repo : GetCommitRepo) (b : BranchState)
    (fromBranch : Option BranchState) : Nat × BranchState × GetCommitRepo :=
  match b.nextCommitId with
  | some c =>
    let repo :=
      if c ∈ repo.commitQueue then repo
      else { repo with commitQueue := repo.commitQueue ++ [c] }
    (c, b, repo)
  | none =>
    let r :=
      match b.commitId with
      | some pc => create_commit repo (some pc)
      | none =>
        match fromBranch with
        | some fb =>
          let r0 :=
            match fb.commitId with
            | some fc => create_commit repo (some fc)
            | none => create_commit repo none
          (r0.1, set_new_branch r0.2 r0.1.id)
        | none => create_commit repo none
    let b := { b with nextCommitId := some r.1.id }
    (r.1.id, b,
     { r.2 with commitQueue := r.2.commitQueue ++ [r.1.id] })

theorem get_commit_fresh (repo : GetCommitRepo) (b : BranchState)
    (fromBranch : Option BranchState) (hpend : b.nextCommitId = none) :
    (get_commit repo b fromBranch).1 = repo.commits.length ∧
    (get_commit repo b fromBranch).2.1
      = { b with nextCommitId := some repo.commits.length } ∧
    (get_commit repo b fromBranch).2.2.commitQueue
      = repo.commitQueue ++ [repo.commits.length] := by
  cases hb : b.commitId with
  | some pc =>
    simp [get_commit, hpend, hb, create_commit]
  | none =>
    cases fromBranch with
    | none => simp [get_commit, hpend, hb, create_commit]
    | some fb =>
      cases hfb : fb.commitId with
      | some fc => simp [get_commit, hpend, hb, hfb, create_commit, set_new_branch]
      | none => simp [get_commit, hpend, hb, hfb, create_commit, set_new_branch]

/-- Claim C10: starting from a branch with no pending commit and a queue
containing only already-allocated commits, calling `get_commit` twice in
the same revision returns the same commit identity both times, leaves the
branch and repository untouched on the second call, and the commit sits
on the flush queue exactly once after both calls. -/
theorem get_commit_once (repo : GetCommitRepo) (b : BranchState)
    (fb fb2 : Option BranchState)
    (hfresh : ∀ x ∈ repo.commitQueue, x < repo.commits.length)
    (hpend : b.nextCommitId = none) :
    (get_commit (get_commit repo b fb).2.2 (get_commit repo b fb).2.1 fb2).1
      = (get_commit repo b fb).1 ∧
    (get_commit (get_commit repo b fb).2.2 (get_commit repo b fb).2.1 fb2).2.1
      = (get_commit repo b fb).2.1 ∧
    (get_commit (get_commit repo b fb).2.2 (get_commit repo b fb).2.1 fb2).2.2
      = (get_commit repo b fb).2.2 ∧
    (get_commit repo b fb).2.2.commitQueue.count (get_commit repo b fb).1 = 1 := by
  obtain ⟨hid, hbr, hq⟩ := get_commit_fresh repo b fb hpend
  have hmem : (get_commit repo b fb).1 ∈ (get_commit repo b fb).2.2.commitQueue := by
    rw [hid, hq]; simp
  have hsecond :
      get_commit (get_commit repo b fb).2.2 (get_commit repo b fb).2.1 fb2
        = ((get_commit repo b fb).1, (get_commit repo b fb).2.1,
           (get_commit repo b fb).2.2) := by
    rw [get_commit.eq_def]
    rw [hbr]
    simp only [hid]
    rw [if_pos (by rw [← hid]; exact hmem)]
  refine ⟨by rw [hsecond], by rw [hsecond], by rw [hsecond], ?_⟩
  rw [hid, hq, List.count_append]
  have hnotmem : repo.commits.length ∉ repo.commitQueue := by
    intro hmem'
    exact absurd (hfresh _ hmem') (lt_irrefl _)
  rw [List.count_eq_zero.mpr hnotmem]
  simp

/-- Witness for `get_commit_once`: an empty repository and a fresh
branch; the first call allocates commit 0 and enqueues it, the second
returns it without a second push. -/
theorem get_commit_once_witness :
    (get_commit (get_commit ⟨[], []⟩
        { commitId := none, nextCommitId := none, gitRef := none } none).2.2
      (get_commit ⟨[], []⟩
        { commitId := none, nextCommitId := none, gitRef := none } none).2.1 none).1
      = (get_commit ⟨[], []⟩
          { commitId := none, nextCommitId := none, gitRef := none } none).1 ∧
    (get_commit ⟨[], []⟩
        { commitId := none, nextCommitId := none, gitRef := none } none).2.2.commitQueue.count
      (get_commit ⟨[], []⟩
        { commitId := none, nextCommitId := none, gitRef := none } none).1 = 1 := by
  have h := get_commit_once ⟨[], []⟩
    { commitId := none, nextCommitId := none, gitRef := none } none none
    (by intro x hx; cases hx) rfl
  exact ⟨h.1, h.2.2.2⟩

/-! ## Git trees and `Tree::do_remove` (claim C9)

A `Git::Object` is a blob or a tree; a tree holds a `std::map` of named
entries plus its `written` and `modified` flags.  Blob bytes, object ids
and the libgit2 treebuilder are not modelled; the entry structure and the
flags are.  The entry map is an association list with unique keys. -/

/-- `Git::Object`: a `Blob`, or a `Tree` with its `entries` map and the
`written`/`modified` flags. -/
inductive GitObj : Type where
  | blob (name : String)
  | tree (name : String) (entries : List (String × GitObj))
      (written : Bool) (modified : Bool)

/-- `entries.find(name)` on the entry map. -/
def entriesFind (entries : List (String × GitObj)) (n : String) : Option GitObj :=
  (entries.find? (fun e => e.1 = n)).map (fun e => e.2)

/-- `entries.erase(i)` at the entry with the given key. -/
def entriesErase (entries : List (String × GitObj)) (n : String) :
    List (String × GitObj) :=
  entries.filter (fun e => ¬ e.1 = n)

/-- `(*i).second = obj` at the entry with the given key. -/
def entriesReplace (entries : List (String × GitObj)) (n : String)
    (o : GitObj) : List (String × GitObj) :=
  entries.map (fun e => if e.1 = n then (n, o) else e)

/-- `Tree::empty()`: the entry map is empty. -/
def GitObj.isEmptyTree : GitObj → Bool
  | .blob _ => false
  | .tree _ es _ _ => es.isEmpty

/-- The `Tree` copy constructor (`Tree::copy()`; the constructor is
defined in the sibling draft src/unnamed/part_005, lines 203-211): the
copy shares the entry map and starts with `written = false,
modified = false`. -/
def GitObj.copy : GitObj → GitObj
  | .blob n => .blob n
  | .tree n es _ _ => .tree n es false false

/-- Embedding of `Tree::do_remove` (src/src/gitutil.cpp, lines 542-582),
by path segments.  A segment absent from the entry map is a silent no-op
("It's OK for remove not to find what it's looking for", per the source
comment).  A found final segment is erased and the tree marked modified.
Descending replaces the found entry with its copy-on-write `copy()`,
recurses into the copy, erases it if it came back empty, and marks the
tree modified.  Two situations are undefined behaviour in the source,
modelled as `none`: an empty path (`*segment` on the end iterator), and a
non-final segment whose entry is a blob (`dynamic_cast<Tree *>` yields
null, immediately dereferenced by `->copy()`). -/
def do_remove : List String → GitObj → Option GitObj
  | [], _ => none
  | _ :: _, GitObj.blob _ => none
  | seg :: rest, GitObj.tree n es w m =>
    match entriesFind es seg with
    | none => some (GitObj.tree n es w m)
    | some obj =>
      match rest with
      | [] => some (GitObj.tree n (entriesErase es seg) w true)
      | r1 :: r2 =>
        match obj with
        | GitObj.blob _ => none
        | GitObj.tree n' es' w' m' =>
          match do_remove (r1 :: r2) (GitObj.copy (GitObj.tree n' es' w' m')) with
          | none => none
          | some sub =>
            let es2 := entriesReplace es seg sub
            if sub.isEmptyTree then
              some (GitObj.tree n (entriesErase es2 seg) w true)
            else
              some (GitObj.tree n es2 w true)

/-- Presence of a path in an object, declaratively: each non-final
segment must lead to a subtree entry and the final segment to an entry
(this is `Tree::do_lookup` with its own null-`dynamic_cast` dereference
made total: running into a blob mid-path means the path does not
resolve). -/
def tree_resolve : List String → GitObj → Option GitObj
  | [], t => some t
  | _ :: _, GitObj.blob _ => none
  | seg :: rest, GitObj.tree _ es _ _ =>
    match entriesFind es seg with
    | none => none
    | some obj => tree_resolve rest obj

mutual

/-- The logical content of an object: names and entry structure with the
copy-on-write bookkeeping (`written`/`modified` flags) erased. -/
def GitObj.strip : GitObj → GitObj
  | .blob n => .blob n
  | .tree n es _ _ => .tree n (stripEntries es) false false

/-- `GitObj.strip` mapped over an entry list. -/
def stripEntries : List (String × GitObj) → List (String × GitObj)
  | [] => []
  | e :: rest => (e.1, GitObj.strip e.2) :: stripEntries rest

end

mutual

/-- Well-formedness of the entry maps: unique keys at every level (the
`std::map` invariant). -/
def GitObj.wf : GitObj → Bool
  | .blob _ => true
  | .tree _ es _ _ =>
    decide ((es.map (fun e => e.1)).Nodup) && entriesWf es

/-- `GitObj.wf` over an entry list. -/
def entriesWf : List (String × GitObj) → Bool
  | [] => true
  | e :: rest => GitObj.wf e.2 && entriesWf rest

end

/-- The path is cleanly absent from the object: the walk stays inside
subtree entries, ends at a segment missing from its map, never runs into
a blob mid-path, and every subtree descended into is non-empty (an empty
subtree would be cascade-erased by `do_remove` even though the path below
it does not exist). -/
def cleanly_absent : List String → GitObj → Bool
  | [], _ => false
  | _ :: _, GitObj.blob _ => false
  | [seg], GitObj.tree _ es _ _ => (entriesFind es seg).isNone
  | seg :: r1 :: r2, GitObj.tree _ es _ _ =>
    match entriesFind es seg with
    | none => true
    | some (GitObj.blob _) => false
    | some (GitObj.tree n' es' w' m') =>
      !es'.isEmpty && cleanly_absent (r1 :: r2) (GitObj.tree n' es' w' m')

/-- Claim C9 as frozen is false at this input: no entry exists at path
`a/b` in the tree `{a ↦ blob}` — the path does not resolve — yet
removing it is not a silent no-op: the source casts the blob entry to a
tree with `dynamic_cast`, obtaining a null pointer it immediately
dereferences (undefined behaviour, modelled as `none`), rather than
leaving the tree unchanged without error. -/
theorem do_remove_blob_in_path_crashes :
    tree_resolve ["a", "b"]
      (GitObj.tree "" [("a", GitObj.blob "a")] false false) = none ∧
    do_remove ["a", "b"]
      (GitObj.tree "" [("a", GitObj.blob "a")] false false) = none ∧
    (none : Option GitObj)
      ≠ some (GitObj.tree "" [("a", GitObj.blob "a")] false false) :=
  ⟨rfl, rfl, by simp⟩

theorem cleanly_absent_flags (rs : List String) (n : String)
    (es : List (String × GitObj)) (w m w2 m2 : Bool) :
    cleanly_absent rs (GitObj.tree n es w m)
      = cleanly_absent rs (GitObj.tree n es w2 m2) := by
  cases rs with
  | nil => rfl
  | cons a t =>
    cases t with
    | nil => rfl
    | cons b t2 => rfl

theorem stripEntries_length : ∀ (es : List (String × GitObj)),
    (stripEntries es).length = es.length
  | [] => rfl
  | _ :: rest => by rw [stripEntries, List.length_cons, List.length_cons,
      stripEntries_length rest]

theorem entriesReplace_not_mem :
    ∀ (es : List (String × GitObj)) (seg : String) (o : GitObj),
      seg ∉ es.map (fun e => e.1) → entriesReplace es seg o = es := by
  intro es
  induction es with
  | nil => intro seg o _; rfl
  | cons e rest ih =>
    intro seg o hseg
    have h1 : e.1 ≠ seg := by
      intro h; exact hseg (by simp [h])
    have h2 : seg ∉ rest.map (fun e => e.1) := by
      intro h; exact hseg (by simp [h])
    rw [entriesReplace, List.map_cons, if_neg h1]
    have := ih seg o h2
    rw [entriesReplace] at this
    rw [this]

theorem stripEntries_replace :
    ∀ (es : List (String × GitObj)) (seg : String) (sub sub' : GitObj),
      (es.map (fun e => e.1)).Nodup →
      entriesFind es seg = some sub →
      GitObj.strip sub' = GitObj.strip sub →
      stripEntries (entriesReplace es seg sub') = stripEntries es := by
  intro es
  induction es with
  | nil => intro seg sub sub' _ hf _; simp [entriesFind] at hf
  | cons e rest ih =>
    intro seg sub sub' hnodup hf hstrip
    rw [List.map_cons] at hnodup
    have hnodup' := List.nodup_cons.mp hnodup
    by_cases he : e.1 = seg
    · have hsub : sub = e.2 := by
        rw [entriesFind, List.find?_cons_of_pos _ (by simpa using he)] at hf
        simpa using hf.symm
      have hnot : seg ∉ rest.map (fun x => x.1) := he ▸ hnodup'.1
      rw [entriesReplace, List.map_cons, if_pos he]
      have hrest := entriesReplace_not_mem rest seg sub' hnot
      rw [entriesReplace] at hrest
      rw [hrest, stripEntries, stripEntries, hstrip, hsub, he]
    · have hf' : entriesFind rest seg = some sub := by
        rw [entriesFind, List.find?_cons_of_neg _ (by simpa using he)] at hf
        exact hf
      rw [entriesReplace, List.map_cons, if_neg he]
      have := ih seg sub sub' hnodup'.2 hf' hstrip
      rw [entriesReplace] at this
      rw [stripEntries, stripEntries, this]

theorem wf_of_entriesFind :
    ∀ {es : List (String × GitObj)} {seg : String} {o : GitObj},
      entriesWf es = true → entriesFind es seg = some o → GitObj.wf o = true := by
  intro es
  induction es with
  | nil => intro seg o _ hf; simp [entriesFind] at hf
  | cons e rest ih =>
    intro seg o hwf hf
    obtain ⟨hwe, hwr⟩ := Bool.and_eq_true_iff.mp (by rwa [entriesWf] at hwf)
    by_cases he : e.1 = seg
    · rw [entriesFind, List.find?_cons_of_pos _ (by simpa using he)] at hf
      have : o = e.2 := by simpa using hf.symm
      rwa [this]
    · rw [entriesFind, List.find?_cons_of_neg _ (by simpa using he)] at hf
      exact ih hwr hf

/-- Claim C9 (amended): removing a path that is cleanly absent — the
walk ends at a segment missing from its entry map, without running into
a file at a non-final segment and without descending into an empty
subtree — succeeds without error and leaves the tree's logical content
(names and entry structure) unchanged; the copy-on-write spine may be
replaced by copies with reset `written`/`modified` bookkeeping.  The two
excluded situations genuinely change behaviour: a file at a non-final
segment is a null-pointer dereference (see the counterexample), and a
descended-into empty subtree is cascade-erased. -/
theorem do_remove_cleanly_absent (segs : List String) :
    ∀ (t : GitObj), GitObj.wf t = true → cleanly_absent segs t = true →
      ∃ t', do_remove segs t = some t' ∧ GitObj.strip t' = GitObj.strip t := by
  induction segs with
  | nil => intro t _ habs; simp [cleanly_absent] at habs
  | cons seg rest ih =>
    intro t hwf habs
    cases t with
    | blob nb => simp [cleanly_absent] at habs
    | tree n es w m =>
      cases rest with
      | nil =>
        have hf : entriesFind es seg = none := by
          simpa [cleanly_absent, Option.isNone_iff_eq_none] using habs
        exact ⟨GitObj.tree n es w m, by simp [do_remove, hf], rfl⟩
      | cons r1 r2 =>
        cases hf : entriesFind es seg with
        | none =>
          exact ⟨GitObj.tree n es w m, by simp [do_remove, hf], rfl⟩
        | some obj =>
          cases obj with
          | blob nb => simp [cleanly_absent, hf] at habs
          | tree n' es' w' m' =>
            have habs' := habs
            rw [cleanly_absent] at habs'
            rw [hf] at habs'
            obtain ⟨hne, hca⟩ := Bool.and_eq_true_iff.mp habs'
            rw [GitObj.wf] at hwf
            obtain ⟨hnodup, hwfes⟩ := Bool.and_eq_true_iff.mp hwf
            have hnodup' : (es.map (fun e => e.1)).Nodup :=
              of_decide_eq_true hnodup
            have hwfsub : GitObj.wf (GitObj.tree n' es' w' m') = true :=
              wf_of_entriesFind hwfes hf
            have hwfcopy : GitObj.wf (GitObj.copy (GitObj.tree n' es' w' m'))
                = true := hwfsub
            have hcacopy : cleanly_absent (r1 :: r2)
                (GitObj.copy (GitObj.tree n' es' w' m')) = true := by
              rw [GitObj.copy, cleanly_absent_flags (r1 :: r2) n' es' false false w' m']
              exact hca
            obtain ⟨sub', hrem, hstrip⟩ := ih _ hwfcopy hcacopy
            have hstrip' : GitObj.strip sub'
                = GitObj.strip (GitObj.tree n' es' w' m') := by
              rw [hstrip]; rfl
            cases sub' with
            | blob nb2 => simp [GitObj.strip] at hstrip'
            | tree n2 es2 w2 m2 =>
              have hinj : n2 = n' ∧ stripEntries es2 = stripEntries es' := by
                rw [GitObj.strip, GitObj.strip] at hstrip'
                exact ⟨by injection hstrip', by injection hstrip'⟩
              have hlen : es2.length = es'.length := by
                rw [← stripEntries_length es2, ← stripEntries_length es',
                  hinj.2]
              have hne' : es' ≠ [] := by
                intro h
                rw [h] at hne
                simp at hne
              have hes2 : es2 ≠ [] := by
                intro h
                apply hne'
                rw [← List.length_eq_zero] at h ⊢
                omega
              have hempty : (GitObj.tree n2 es2 w2 m2).isEmptyTree = false := by
                rw [GitObj.isEmptyTree]
                exact Bool.eq_false_iff.mpr
                  (fun hc => hes2 (List.isEmpty_iff.mp hc))
              refine ⟨GitObj.tree n
                (entriesReplace es seg (GitObj.tree n2 es2 w2 m2)) w true,
                ?_, ?_⟩
              · rw [do_remove.eq_def]
                simp only [hf, hrem, hempty]
                simp
              · rw [GitObj.strip, GitObj.strip]
                rw [stripEntries_replace es seg _ _ hnodup' hf hstrip']

/-- Witness for `do_remove_cleanly_absent`: removing `a/c` from the tree
`{a ↦ {b ↦ blob}}` — the path is cleanly absent — succeeds and keeps
the logical content. -/
theorem do_remove_cleanly_absent_witness :
    ∃ t', do_remove ["a", "c"]
        (GitObj.tree ""
          [("a", GitObj.tree "a" [("b", GitObj.blob "b")] true false)]
          true false) = some t' ∧
      GitObj.strip t' = GitObj.strip
        (GitObj.tree ""
          [("a", GitObj.tree "a" [("b", GitObj.blob "b")] true false)]
          true false) :=
  do_remove_cleanly_absent ["a", "c"]
    (GitObj.tree "" [("a", GitObj.tree "a" [("b", GitObj.blob "b")] true false)]
      true false) (by rfl) (by rfl)

/-! ## Branch table loading (claim C8)

`Branches::load_branches` (src/unnamed/part_002, lines 37-120) parses one
branch descriptor per line and validates it against the descriptors
loaded so far. -/

/-- One parsed line of the branches file: field 0 starting with `t`
makes a tag, field 4 is the source prefix (as path segments), field 5
the branch name.  Lines whose prefix or name is empty are skipped. -/
structure BranchLine where
  isTag : Bool
  prefixPath : SvnPath
  name : String
deriving DecidableEq

/-- `Repository::find_branch_by_name` with a default object
(src/src/gitutil.cpp, lines 895-914), as called by `load_branches` for
its name registration: return the branch already registered under the
name, or register the default and return it.  Its `nullptr` return needs
an insertion to fail right after a failed lookup, which cannot happen,
so the result is always `some`. -/
def find_branch_by_name (byName : List (String × Nat)) (name : String)
    (defaultId : Nat) : Option Nat × List (String × Nat) :=
  match byName.find? (fun e => e.1 = name) with
  | some e => (some e.2, byName)
  | none => (some defaultId, byName ++ [(name, defaultId)])

/-- The `dirname` chain of the ancestor-checking loop
(src/unnamed/part_002, lines 93-104): the path, then its `parent_path`,
and so on while non-empty.  Driven by a step counter equal to the
starting path's length. -/
def dirname_chain : Nat → SvnPath → List SvnPath
  | 0, _ => []
  | _ + 1, [] => []
  | steps + 1, a :: rest => (a :: rest) :: dirname_chain steps (a :: rest).dropLast

/-- The state accumulated by `Branches::load_branches`: the error count,
the prefix-keyed branch map (`converter.branches`, in insertion order),
and the repository's name-keyed branch map consulted by `find_branch`. -/
structure LoadState where
  errors : Nat
  branches : List (SvnPath × BranchLine)
  byName : List (String × Nat)
deriving DecidableEq

/-- Processing of one line by `Branches::load_branches`
(src/unnamed/part_002, lines 50-117): skip incomplete lines; register
the name with the repository (an error only on `find_branch`'s
unreachable null return); insert the descriptor by prefix — a repeated
prefix is an error and the original entry is kept; on successful
insertion, each already-declared proper ancestor of the prefix counts
one error, and each other descriptor carrying the same name counts one
error. -/
def load_branch_line (st : LoadState) (line : BranchLine) : LoadState :=
  if line.prefixPath = [] ∨ line.name = "" then st
  else
    let r := find_branch_by_name st.byName line.name st.branches.length
    let e1 := if r.1.isNone then st.errors + 1 else st.errors
    if (st.branches.find? (fun e => e.1 = line.prefixPath)).isSome then
      { errors := e1 + 1, branches := st.branches, byName := r.2 }
    else
      let branches2 := st.branches ++ [(line.prefixPath, line)]
      let ancErr := (dirname_chain line.prefixPath.dropLast.length
        line.prefixPath.dropLast).countP
        (fun d => (branches2.find? (fun e => e.1 = d)).isSome)
      let nameErr := branches2.countP
        (fun e => ¬e.2 = line ∧ e.2.name = line.name)
      { errors := e1 + ancErr + nameErr, branches := branches2, byName := r.2 }

/-- `Branches::load_branches`: start from a cleared map and process every
line, accumulating errors. -/
def load_branches (lines : List BranchLine) : LoadState :=
  lines.foldl load_branch_line { errors := 0, branches := [], byName := [] }

/-- Claim C8 as frozen is false: loading the prefix `foo/bar` first and
its ancestor `foo` second reports zero errors yet retains both — the
ancestor check only looks for ancestors of the line being inserted, so a
prefix declared after its descendant is never flagged.  In the reverse
order the same two descriptors produce one error.  The guarantee is
order-dependent. -/
theorem load_branches_order_dependent :
    (load_branches [⟨false, ["foo", "bar"], "a"⟩, ⟨false, ["foo"], "b"⟩]).errors
      = 0 ∧
    (load_branches [⟨false, ["foo", "bar"], "a"⟩,
        ⟨false, ["foo"], "b"⟩]).branches.map Prod.fst
      = [["foo", "bar"], ["foo"]] ∧
    (["foo"] : SvnPath).isPrefixOf ["foo", "bar"] = true ∧
    (["foo"] : SvnPath) ≠ ["foo", "bar"] ∧
    (load_branches [⟨false, ["foo"], "b"⟩, ⟨false, ["foo", "bar"], "a"⟩]).errors
      = 1 := by decide

theorem find_branch_by_name_isSome (byName : List (String × Nat))
    (name : String) (d : Nat) :
    (find_branch_by_name byName name d).1.isNone = false := by
  rw [find_branch_by_name]
  cases h : byName.find? (fun e => e.1 = name) <;> simp

theorem mem_dirname_chain :
    ∀ (fuel : Nat) (q d : SvnPath), q.length ≤ fuel →
      (d ∈ dirname_chain fuel q ↔ d ≠ [] ∧ d <+: q) := by
  intro fuel
  induction fuel with
  | zero =>
    intro q d hq
    have : q = [] := List.length_eq_zero.mp (Nat.le_zero.mp hq)
    subst this
    simp [dirname_chain, List.prefix_nil]
  | succ fuel ih =>
    intro q d hq
    cases q with
    | nil =>
      simp [dirname_chain, List.prefix_nil]
    | cons a rest =>
      rw [dirname_chain]
      have hlen : (a :: rest).dropLast.length ≤ fuel := by
        have := List.length_dropLast (a :: rest)
        simp at hq ⊢
        omega
      rw [List.mem_cons, ih _ _ hlen]
      constructor
      · rintro (rfl | ⟨hne, hpre⟩)
        · exact ⟨by simp, List.prefix_refl _⟩
        · exact ⟨hne, hpre.trans (List.dropLast_prefix _)⟩
      · rintro ⟨hne, hpre⟩
        rcases prefix_dropLast_or_eq hpre with h1 | h2
        · exact Or.inr ⟨hne, h1⟩
        · exact Or.inl h2

/-- The invariant `load_branch_line` maintains when it reports no error:
prefixes are pairwise distinct, names are pairwise distinct, no earlier
prefix is a proper ancestor of a later one, and every entry is keyed by
its descriptor's own non-empty prefix. -/
def LoadInv (st : LoadState) : Prop :=
  (st.branches.map Prod.fst).Nodup ∧
  (st.branches.map (fun e => e.2.name)).Nodup ∧
  st.branches.Pairwise (fun a b => ¬(a.1 ≠ b.1 ∧ a.1 <+: b.1)) ∧
  (∀ e ∈ st.branches, e.1 = e.2.prefixPath ∧ e.1 ≠ [])

theorem load_branch_line_errors_mono (st : LoadState) (line : BranchLine) :
    st.errors ≤ (load_branch_line st line).errors := by
  rw [load_branch_line]
  by_cases h1 : line.prefixPath = [] ∨ line.name = ""
  · rw [if_pos h1]
  · rw [if_neg h1]
    have hisNone := find_branch_by_name_isSome st.byName line.name
      st.branches.length
    by_cases h2 : (st.branches.find? (fun e => e.1 = line.prefixPath)).isSome
    · rw [if_pos h2, if_neg (by simp [hisNone])]
      dsimp only
      omega
    · rw [if_neg h2, if_neg (by simp [hisNone])]
      dsimp only
      omega

theorem load_branches_foldl_mono :
    ∀ (lines : List BranchLine) (st : LoadState),
      st.errors ≤ (lines.foldl load_branch_line st).errors := by
  intro lines
  induction lines with
  | nil => intro st; exact le_refl _
  | cons l rest ih =>
    intro st
    rw [List.foldl_cons]
    exact le_trans (load_branch_line_errors_mono st l) (ih _)

theorem nodup_append_singleton {α : Type} {l : List α} {a : α}
    (h : l.Nodup) (ha : a ∉ l) : (l ++ [a]).Nodup := by
  refine List.pairwise_append.mpr ⟨h, List.pairwise_singleton _ _, ?_⟩
  intro x hx y hy
  simp only [List.mem_singleton] at hy
  subst hy
  intro hxy
  exact ha (hxy ▸ hx)

theorem load_branch_line_step (st : LoadState) (line : BranchLine)
    (hinv : LoadInv st)
    (hnoerr : (load_branch_line st line).errors = st.errors) :
    LoadInv (load_branch_line st line) := by
  obtain ⟨hkeys, hnames, hpair, hcoh⟩ := hinv
  rw [load_branch_line] at hnoerr ⊢
  by_cases h1 : line.prefixPath = [] ∨ line.name = ""
  · rw [if_pos h1]
    exact ⟨hkeys, hnames, hpair, hcoh⟩
  · rw [if_neg h1] at hnoerr ⊢
    have hisNone := find_branch_by_name_isSome st.byName line.name
      st.branches.length
    by_cases h2 : (st.branches.find? (fun e => e.1 = line.prefixPath)).isSome
    · rw [if_pos h2, if_neg (by simp [hisNone])] at hnoerr
      dsimp only at hnoerr
      exact absurd hnoerr (by omega)
    · rw [if_neg h2] at hnoerr ⊢
      rw [if_neg (by simp [hisNone])] at hnoerr
      dsimp only at hnoerr
      have hz : (dirname_chain line.prefixPath.dropLast.length
            line.prefixPath.dropLast).countP
            (fun d => ((st.branches ++ [(line.prefixPath, line)]).find?
              (fun e => e.1 = d)).isSome) = 0 ∧
          (st.branches ++ [(line.prefixPath, line)]).countP
            (fun e => ¬e.2 = line ∧ e.2.name = line.name) = 0 := by
        constructor <;> omega
      have hpne : line.prefixPath ≠ [] := by
        intro h; exact h1 (Or.inl h)
      have hnew_notin : ∀ e ∈ st.branches, e.1 ≠ line.prefixPath := by
        intro e he
        have := List.find?_eq_none.mp (Option.not_isSome_iff_eq_none.mp h2) e he
        simpa using this
      have hold_ne : ∀ e ∈ st.branches, e.2 ≠ line := by
        intro e he hequal
        exact hnew_notin e he (by rw [(hcoh e he).1, hequal])
      have hname0 : ∀ e ∈ st.branches, e.2.name ≠ line.name := by
        intro e he hn
        have hcount := List.countP_eq_zero.mp hz.2 e (List.mem_append_left _ he)
        simp only [decide_eq_true_eq] at hcount
        exact hcount ⟨hold_ne e he, hn⟩
      have hanc0 : ∀ e ∈ st.branches, ¬(e.1 ≠ line.prefixPath ∧
          e.1 <+: line.prefixPath) := by
        rintro e he ⟨hne', hpre⟩
        have hdl : e.1 <+: line.prefixPath.dropLast := by
          rcases prefix_dropLast_or_eq hpre with h | h
          · exact h
          · exact absurd h hne'
        have hchain : e.1 ∈ dirname_chain line.prefixPath.dropLast.length
            line.prefixPath.dropLast :=
          (mem_dirname_chain _ _ _ le_rfl).mpr ⟨(hcoh e he).2, hdl⟩
        have hcount := List.countP_eq_zero.mp hz.1 e.1 hchain
        apply hcount
        rw [List.find?_isSome]
        exact ⟨e, List.mem_append_left _ he, by simp⟩
      refine ⟨?_, ?_, ?_, ?_⟩
      · simp only [List.map_append, List.map_cons, List.map_nil]
        refine nodup_append_singleton hkeys ?_
        intro hmem
        obtain ⟨e, he, heq⟩ := List.mem_map.mp hmem
        exact hnew_notin e he heq
      · simp only [List.map_append, List.map_cons, List.map_nil]
        refine nodup_append_singleton hnames ?_
        intro hmem
        obtain ⟨e, he, heq⟩ := List.mem_map.mp hmem
        exact hname0 e he heq
      · rw [List.pairwise_append]
        refine ⟨hpair, List.pairwise_singleton _ _, ?_⟩
        intro a ha b hb
        simp only [List.mem_singleton] at hb
        subst hb
        exact hanc0 a ha
      · intro e he
        rcases List.mem_append.mp he with h | h
        · exact hcoh e h
        · simp only [List.mem_singleton] at h
          subst h
          exact ⟨rfl, hpne⟩

/-- Claim C8 (amended): after a branch-table load that reports zero
errors, the retained descriptors have pairwise-distinct prefixes,
pairwise-distinct names, and no descriptor's prefix is a proper ancestor
of a *later-declared* descriptor's prefix.  Duplicate prefixes, an
already-declared ancestor of the line being inserted, and repeated names
are each counted as load-time errors — but a prefix declared *after* one
of its descendants is not detected, so full ancestor-freedom depends on
the order of the lines (see the counterexample). -/
theorem load_branches_spec (lines : List BranchLine)
    (h0 : (load_branches lines).errors = 0) :
    ((load_branches lines).branches.map Prod.fst).Nodup ∧
    ((load_branches lines).branches.map (fun e => e.2.name)).Nodup ∧
    (load_branches lines).branches.Pairwise
      (fun a b => ¬(a.1 ≠ b.1 ∧ a.1 <+: b.1)) := by
  have haux : ∀ (ls : List BranchLine) (st : LoadState), LoadInv st →
      (ls.foldl load_branch_line st).errors = st.errors →
      LoadInv (ls.foldl load_branch_line st) := by
    intro ls
    induction ls with
    | nil => intro st hinv _; exact hinv
    | cons l rest ih =>
      intro st hinv herr
      rw [List.foldl_cons] at herr ⊢
      have hm1 := load_branch_line_errors_mono st l
      have hm2 := load_branches_foldl_mono rest (load_branch_line st l)
      have hstep : (load_branch_line st l).errors = st.errors := by omega
      exact ih _ (load_branch_line_step st l hinv hstep) (by omega)
  have hinv0 : LoadInv { errors := 0, branches := [], byName := [] } :=
    ⟨List.nodup_nil, List.nodup_nil, List.Pairwise.nil, fun e he => absurd he
      (List.not_mem_nil e)⟩
  have hfin := haux lines { errors := 0, branches := [], byName := [] } hinv0 h0
  exact ⟨hfin.1, hfin.2.1, hfin.2.2.1⟩

/-- Witness for `load_branches_spec`: a two-line table (`trunk → master`,
`branches/topic → topic`) loads with zero errors and satisfies all three
uniqueness guarantees. -/
theorem load_branches_spec_witness :
    ((load_branches [⟨false, ["trunk"], "master"⟩,
        ⟨false, ["branches", "topic"], "topic"⟩]).branches.map Prod.fst).Nodup ∧
    ((load_branches [⟨false, ["trunk"], "master"⟩,
        ⟨false, ["branches", "topic"], "topic"⟩]).branches.map
      (fun e => e.2.name)).Nodup ∧
    (load_branches [⟨false, ["trunk"], "master"⟩,
        ⟨false, ["branches", "topic"], "topic"⟩]).branches.Pairwise
      (fun a b => ¬(a.1 ≠ b.1 ∧ a.1 <+: b.1)) :=
  load_branches_spec
    [⟨false, ["trunk"], "master"⟩, ⟨false, ["branches", "topic"], "topic"⟩]
    (by decide)

end Subconvert
